import Mathlib

/-!
Verification of the LearnFinance study platform core:
the Leitner spaced-repetition scheduler (src/js/utils.js, flashcard module)
and the progress/streak store with its import merge (src/js/exam-outline.js,
progress module), plus the quiz pass-rule (lesson quiz summary module).

Calendar dates (ISO date strings in the source) are embedded as `Int` day
numbers: lexicographic comparison of ISO date strings coincides with
calendar order, so `≤ / < / +days` on `Int` is a faithful model.
ISO timestamp strings (`lastActivity`, quiz-score `date`) are kept as
`String`, compared with the string order, exactly as the source does.
JavaScript `Array.prototype.sort` with a consistent comparator is a stable
sort; it is embedded as `List.insertionSort` over the comparator's
`cmp a b ≤ 0` relation, which is the (unique) stable sort for that
relation.  `localStorage` round-trips are embedded as plain state passing.
-/

namespace LearnFinance

/-! ## Leitner scheduler (flashcard module in src/js/utils.js) -/

/-- Per-card review state: `{ box, nextReview }` from the flashcard module. -/
structure CardState where
  box : Nat
  nextReview : Int
deriving DecidableEq, Repr

/-- `const BOX_INTERVALS = { 1: 0, 2: 2, 3: 4, 4: 7, 5: 14 }`.
Out-of-range boxes have no entry in the source object (JS `undefined`);
they are never accessed for boxes in `[1,5]`. -/
def BOX_INTERVALS : Nat → Nat
  | 1 => 0
  | 2 => 2
  | 3 => 4
  | 4 => 7
  | 5 => 14
  | _ => 0

/-- `addDays(dateStr, days)`: shift a calendar date by a number of days. -/
def addDays (d : Int) (n : Nat) : Int := d + n

/-- `handleAnswer(knowIt)` acting on one card's state (the part of the
source function that mutates `state`; DOM/session-stat code is out of
scope).  On "knows it" the box is bumped (capped at 5) and the next review
is scheduled using the interval of the *new* box; otherwise the card drops
to box 1 and is due today. -/
def handleAnswer (knowIt : Bool) (today : Int) (st : CardState) : CardState :=
  if knowIt then
    let box := min (st.box + 1) 5
    { box := box, nextReview := addDays today (BOX_INTERVALS box) }
  else
    { box := 1, nextReview := today }

/-- A flashcard; the scheduler only ever reads `id`, the payload stands for
the remaining fields (term/definition). -/
structure Card where
  id : String
  term : String
deriving DecidableEq, Repr

/-- The persisted `leitnerState` map, card id to state (a JS object,
embedded as an association list in insertion order). -/
abbrev LeitnerMap := List (String × CardState)

/-- Association-list lookup (JS object property access). -/
def assocGet {β : Type _} : List (String × β) → String → Option β
  | [], _ => none
  | (k, v) :: rest, id => if k = id then some v else assocGet rest id

/-- The value `getCardState(cardId)` returns: the stored state, or the
default `{ box: 1, nextReview: today }` for an unseen id. -/
def getCardState (m : LeitnerMap) (today : Int) (id : String) : CardState :=
  (assocGet m id).getD { box := 1, nextReview := today }

/-- The insertion side effect of `getCardState`: a default entry is created
for an id that has no entry yet. -/
def touchCardState (m : LeitnerMap) (today : Int) (id : String) : LeitnerMap :=
  if (assocGet m id).isSome then m else m ++ [(id, { box := 1, nextReview := today })]

/-- `isDue(cardId)`: `state.nextReview <= today`. -/
def isDue (m : LeitnerMap) (today : Int) (id : String) : Bool :=
  (getCardState m today id).nextReview ≤ today

/-- `boxToStars(box)`: the identity display helper. -/
def boxToStars (box : Nat) : Nat := box

/-- The comparator passed to `sort` in `sortCards`: due cards first, then
ascending box, then ascending `nextReview` (the `localeCompare` of two ISO
dates is their calendar comparison). -/
def cmpCards (m : LeitnerMap) (today : Int) (a b : Card) : Int :=
  let sa := getCardState m today a.id
  let sb := getCardState m today b.id
  let aDue := sa.nextReview ≤ today
  let bDue := sb.nextReview ≤ today
  if aDue ∧ ¬bDue then -1
  else if ¬aDue ∧ bDue then 1
  else if sa.box ≠ sb.box then (sa.box : Int) - (sb.box : Int)
  else if sa.nextReview < sb.nextReview then -1
  else if sb.nextReview < sa.nextReview then 1
  else 0

/-- The non-strict order induced by the comparator. -/
def cardLe (m : LeitnerMap) (today : Int) (a b : Card) : Prop :=
  cmpCards m today a b ≤ 0

instance (m : LeitnerMap) (today : Int) : DecidableRel (cardLe m today) :=
  fun a b => inferInstanceAs (Decidable (cmpCards m today a b ≤ 0))

/-- `sortCards(cards)`: `[...cards].sort(comparator)` — a stable sort of a
copy of the input by the comparator, embedded as insertion sort over
`cardLe`. -/
def sortCards (m : LeitnerMap) (today : Int) (cards : List Card) : List Card :=
  List.insertionSort (cardLe m today) cards

/-- The comparator's reads go through `getCardState`, which inserts a
default entry for every unseen card id; the map after sorting. -/
def touchStates (m : LeitnerMap) (today : Int) (cards : List Card) : LeitnerMap :=
  cards.foldl (fun acc c => touchCardState acc today c.id) m

/-- The composite sort key of a card under a given state map: due-rank
(0 = due, 1 = not due), box, nextReview. -/
def sortKey (m : LeitnerMap) (today : Int) (c : Card) : Nat × Nat × Int :=
  let s := getCardState m today c.id
  (if s.nextReview ≤ today then 0 else 1, s.box, s.nextReview)

/-- The ordering the specification claims for the study queue, written out
on the composite key: due before not due, then ascending box, then
ascending next-review date. -/
def claimOrder (m : LeitnerMap) (today : Int) (a b : Card) : Prop :=
  (sortKey m today a).1 < (sortKey m today b).1 ∨
    ((sortKey m today a).1 = (sortKey m today b).1 ∧
      ((sortKey m today a).2.1 < (sortKey m today b).2.1 ∨
        ((sortKey m today a).2.1 = (sortKey m today b).2.1 ∧
          (sortKey m today a).2.2 ≤ (sortKey m today b).2.2)))

/-! ## Progress store (progress module in src/js/exam-outline.js) -/

/-- One quiz-score record `{ date, score, total, passed }`. -/
structure QuizEntry where
  date : String
  score : Nat
  total : Nat
  passed : Bool
deriving DecidableEq, Repr

/-- Per-exam progress, `getDefaultExamProgress()` shape. -/
structure ExamProgress where
  topicsStudied : List String
  chaptersCompleted : List String
  quizScores : List QuizEntry
  flashcardsMastered : Nat
  lastActivity : Option String
deriving DecidableEq, Repr

/-- `getDefaultExamProgress()`. -/
def getDefaultExamProgress : ExamProgress :=
  { topicsStudied := [], chaptersCompleted := [], quizScores := [],
    flashcardsMastered := 0, lastActivity := none }

/-- The streak tracker `{ dates, current, longest }`. -/
structure Streaks where
  dates : List Int
  current : Nat
  longest : Nat
deriving DecidableEq, Repr

/-- The whole persisted progress blob `{ exams, streaks }`. -/
structure Progress where
  exams : List (String × ExamProgress)
  streaks : Streaks
deriving DecidableEq, Repr

/-- `getDefaultProgress()`. -/
def getDefaultProgress : Progress :=
  { exams := [], streaks := { dates := [], current := 0, longest := 0 } }

/-- One step of JS `new Set(...)` construction: keep first occurrences. -/
def jsSetInsert {α : Type _} [DecidableEq α] (acc : List α) (x : α) : List α :=
  if x ∈ acc then acc else acc ++ [x]

/-- `[...new Set(l)]`: deduplicate keeping first occurrences, in order. -/
def jsSetList {α : Type _} [DecidableEq α] (l : List α) : List α :=
  l.foldl jsSetInsert []

/-- The descending order used to model `.sort().reverse()` on dates. -/
def dateGe (a b : Int) : Prop := b ≤ a

instance : DecidableRel dateGe := fun a b => inferInstanceAs (Decidable (b ≤ a))

instance : IsTotal Int dateGe := ⟨fun a b => by unfold dateGe; exact le_total b a⟩

instance : IsTrans Int dateGe :=
  ⟨fun a b c h1 h2 => by unfold dateGe at *; exact le_trans h2 h1⟩

/-- `.sort()` on ISO date strings, then `.reverse()`: descending calendar
order. -/
def sortDesc (l : List Int) : List Int :=
  List.insertionSort dateGe l

/-- `[...new Set(dates)].sort().reverse()` from `updateStreaks`. -/
def jsDedupSortDesc (l : List Int) : List Int :=
  sortDesc (jsSetList l)

/-- The match-counting loop of `updateStreaks` once the walk is anchored:
`sorted[i]` is compared with an expected date that goes down one day per
step, and the walk stops at the first mismatch. -/
def countRun : List Int → Int → Nat
  | [], _ => 0
  | d :: rest, expected =>
    if d = expected then countRun rest (expected - 1) + 1 else 0

/-- The `current`-computing loop of `updateStreaks`, on the deduplicated,
descending-sorted date list.  The walk starts at today; if the most recent
date is exactly yesterday (`diffFromToday === 1`) the anchor shifts to
yesterday (the grace branch at `i === 0`). -/
def computeCurrent (today : Int) : List Int → Nat
  | [] => 0
  | d :: rest =>
    if d = today then countRun rest (today - 1) + 1
    else if today - d = 1 then
      if d = today - 1 then countRun rest (today - 1 - 1) + 1 else 0
    else 0

/-- `updateStreaks(data)` restricted to the `streaks` object it reads and
writes.  Empty date set: only `current` is zeroed.  Otherwise the date
list is replaced by its deduplicated descending sort; if the most recent
date is more than one day old the streak is broken (`current = 0`, and
`longest` is *not* revisited); otherwise `current` is recomputed by the
walk and `longest` raised to it if exceeded. -/
def updateStreaksS (today : Int) (st : Streaks) : Streaks :=
  if st.dates = [] then { st with current := 0 }
  else
    let sorted := jsDedupSortDesc st.dates
    let mostRecent := sorted.headD 0
    if 1 < today - mostRecent then
      { st with dates := sorted, current := 0 }
    else
      let current := computeCurrent today sorted
      { dates := sorted, current := current, longest := max st.longest current }

/-- The `dates.push(today)`-if-absent step of `recordActivity`. -/
def pushToday (today : Int) (st : Streaks) : Streaks :=
  { st with dates := if today ∈ st.dates then st.dates else st.dates ++ [today] }

/-- `recordActivity()`: push today's date if absent, then recompute
streaks (load/save of the blob is explicit state passing). -/
def recordActivity (today : Int) (p : Progress) : Progress :=
  { p with streaks := updateStreaksS today (pushToday today p.streaks) }

/-- Writing an exam entry back: `ensureExam` inserts a default entry for a
missing id and the caller mutates it in place, so the net effect is an
in-place update when the id is present and an append otherwise. -/
def setExam (l : List (String × ExamProgress)) (id : String) (v : ExamProgress) :
    List (String × ExamProgress) :=
  if (assocGet l id).isSome then
    l.map fun kv => if kv.1 = id then (id, v) else kv
  else l ++ [(id, v)]

/-- `markChapterComplete(examId, chapterId, complete)`.  `nowTs` stands for
`new Date().toISOString()`. -/
def markChapterComplete (today : Int) (nowTs : String) (examId chapterId : String)
    (complete : Bool) (p : Progress) : Progress :=
  let ex := (assocGet p.exams examId).getD getDefaultExamProgress
  let ex :=
    if complete ∧ chapterId ∉ ex.chaptersCompleted then
      { ex with chaptersCompleted := ex.chaptersCompleted ++ [chapterId] }
    else if ¬complete then
      { ex with chaptersCompleted := ex.chaptersCompleted.filter (fun c => c ≠ chapterId) }
    else ex
  let ex := { ex with lastActivity := some nowTs }
  recordActivity today { p with exams := setExam p.exams examId ex }

/-- `markTopicStudied(examId, topicId, studied)`. -/
def markTopicStudied (today : Int) (nowTs : String) (examId topicId : String)
    (studied : Bool) (p : Progress) : Progress :=
  let ex := (assocGet p.exams examId).getD getDefaultExamProgress
  let ex :=
    if studied ∧ topicId ∉ ex.topicsStudied then
      { ex with topicsStudied := ex.topicsStudied ++ [topicId] }
    else if ¬studied then
      { ex with topicsStudied := ex.topicsStudied.filter (fun t => t ≠ topicId) }
    else ex
  let ex := { ex with lastActivity := some nowTs }
  recordActivity today { p with exams := setExam p.exams examId ex }

/-- `saveQuizScore(examId, score, total, passed)`. -/
def saveQuizScore (today : Int) (nowTs : String) (examId : String)
    (score total : Nat) (passed : Bool) (p : Progress) : Progress :=
  let ex := (assocGet p.exams examId).getD getDefaultExamProgress
  let ex := { ex with
    quizScores := ex.quizScores ++ [{ date := nowTs, score := score, total := total, passed := passed }],
    lastActivity := some nowTs }
  recordActivity today { p with exams := setExam p.exams examId ex }

/-- JS truthiness of a nullable string (`null`/`undefined`/`""` are falsy). -/
def jsTruthy : Option String → Bool
  | none => false
  | some s => s ≠ ""

/-- The `lastActivity` merge step of `importProgress`:
`if (examData.lastActivity) if (!existing.lastActivity || examData.lastActivity > existing.lastActivity) ...`
(`!existing.lastActivity` is JS falsiness: `null` or the empty string). -/
def mergeLastActivity (ex imp : Option String) : Option String :=
  match imp with
  | none => ex
  | some i =>
    if i = "" then ex
    else
      match ex with
      | none => some i
      | some e => if e = "" then some i else if e < i then some i else ex

/-- The per-exam merge body of `importProgress` (the snapshot is typed, so
the `Array.isArray` / `typeof` guards on its fields hold): set-union of
topics and chapters, append of quiz scores whose (truthy) date is not among
the existing dates — the existing-dates set is computed once, before the
append loop — max of `flashcardsMastered`, later `lastActivity`. -/
def mergeExamData (ex imp : ExamProgress) : ExamProgress :=
  let existingDates := ex.quizScores.map QuizEntry.date
  { topicsStudied := jsSetList (ex.topicsStudied ++ imp.topicsStudied),
    chaptersCompleted := jsSetList (ex.chaptersCompleted ++ imp.chaptersCompleted),
    quizScores := ex.quizScores ++
      imp.quizScores.filter (fun q => decide (q.date ≠ "" ∧ q.date ∉ existingDates)),
    flashcardsMastered := max ex.flashcardsMastered imp.flashcardsMastered,
    lastActivity := mergeLastActivity ex.lastActivity imp.lastActivity }

/-- One iteration of the `for (const [examId, examData] of Object.entries(imported.exams))`
loop: `ensureExam` then in-place merge. -/
def mergeExamInto (p : Progress) (id : String) (imp : ExamProgress) : Progress :=
  let base := (assocGet p.exams id).getD getDefaultExamProgress
  { p with exams := setExam p.exams id (mergeExamData base imp) }

/-- What `importProgress` receives after `typeof json === 'string' ? JSON.parse(json) : json`:
either the parse throws, or the parsed value fails the
`!imported || typeof imported !== 'object'` check, or it is an object whose
recognized fields form a progress snapshot. -/
inductive ImportInput where
  | parseFail
  | nonObject
  | object (snap : Progress)
deriving DecidableEq

/-- The `for (const [examId, examData] of Object.entries(imported.exams))`
loop of `importProgress`, merging every imported exam into the store. -/
def foldExams (p : Progress) (entries : List (String × ExamProgress)) : Progress :=
  entries.foldl (fun acc kv => mergeExamInto acc kv.1 kv.2) p

/-- The streak-merge block of `importProgress`: union the date sets, take
the larger `longest`, then recompute via `updateStreaks`. -/
def mergeStreaks (today : Int) (cur snap : Progress) : Streaks :=
  updateStreaksS today
    { dates := jsSetList (cur.streaks.dates ++ snap.streaks.dates),
      current := cur.streaks.current,
      longest := max cur.streaks.longest snap.streaks.longest }

/-- `importProgress(json)`: fail closed returning `false` on a parse error
or a non-object top level (the thrown error is caught before any save);
otherwise merge every imported exam, union the streak dates, take the max
`longest`, recompute the streak, save, and return `true`. -/
def importProgress (today : Int) (input : ImportInput) (p : Progress) : Bool × Progress :=
  match input with
  | .parseFail => (false, p)
  | .nonObject => (false, p)
  | .object snap =>
    let cur := foldExams p snap.exams
    (true, { cur with streaks := mergeStreaks today cur snap })

/-- `exportProgress()`: `JSON.stringify(loadProgress())`.  Parsing the
exported string recovers exactly the store, so the exported snapshot is
embedded as the store itself. -/
def exportProgress (p : Progress) : ImportInput := .object p

/-! ## Quiz pass rule (lesson-quiz summary, src/unnamed/part_000) -/

/-- JS `Math.round` on an exact rational (round half away from zero is
round half up for the nonnegative values that occur here). -/
def mathRound (q : ℚ) : ℤ := ⌊q + 1 / 2⌋

/-- `const percent = total > 0 ? Math.round((correct / total) * 100) : 0`. -/
def quizPercent (correct total : Nat) : ℤ :=
  if 0 < total then mathRound ((correct : ℚ) / (total : ℚ) * 100) else 0

/-- `passed: percent >= 70` in the saved quiz score of `showQuizSummary`. -/
def quizPassed (correct total : Nat) : Bool :=
  decide (70 ≤ quizPercent correct total)

/-! ## Spec-side definitions (for refinement statements) -/

/-- Modelled from the spec: the interval table `{1:0, 2:2, 3:4, 4:7, 5:14}`
days, as quoted by the claim. -/
def specBoxInterval : Nat → Nat
  | 1 => 0
  | 2 => 2
  | 3 => 4
  | 4 => 7
  | 5 => 14
  | _ => 0

/-- Modelled from the spec: "the consecutive-day count starting at `k`" —
the number of consecutive calendar days `k, k-1, k-2, …` all present in the
date set.  `fuel` bounds the walk; any `fuel ≥` the number of dates is
enough since the counted days are distinct members of the set. -/
def specRunLen (dates : List Int) : Nat → Int → Nat
  | 0, _ => 0
  | fuel + 1, k => if k ∈ dates then specRunLen dates fuel (k - 1) + 1 else 0

/-- Modelled from the spec: "the later (string-greater) of existing and
imported", with a missing value counting as earliest. -/
def specLater (ex imp : Option String) : Option String :=
  match ex, imp with
  | none, i => i
  | some e, none => some e
  | some e, some i => if e < i then some i else some e

/-- The StreakTracker invariant the spec states: `longest >= current` and
the persisted date list contains no duplicates. -/
def streakInv (st : Streaks) : Prop :=
  st.current ≤ st.longest ∧ st.dates.Nodup

/-- Modelled from the spec: the claimed per-exam merge outcome of
`importAll` for an exam id carrying `impEx` in the imported snapshot —
`topicsStudied` and `chaptersCompleted` become the duplicate-free union of
existing and imported, `quizScores` gains exactly the imported entries
whose date is not already present (appended after the unchanged existing
entries), `flashcardsMastered` becomes the max, `lastActivity` the later
timestamp. -/
def importMergeSpec (today : Int) (p snap : Progress) (examId : String)
    (impEx : ExamProgress) : Prop :=
  ∃ ex2 : ExamProgress,
    assocGet (importProgress today (.object snap) p).2.exams examId = some ex2 ∧
    ex2.topicsStudied.Nodup ∧
    (∀ t, t ∈ ex2.topicsStudied ↔
      t ∈ ((assocGet p.exams examId).getD getDefaultExamProgress).topicsStudied ∨
        t ∈ impEx.topicsStudied) ∧
    ex2.chaptersCompleted.Nodup ∧
    (∀ c, c ∈ ex2.chaptersCompleted ↔
      c ∈ ((assocGet p.exams examId).getD getDefaultExamProgress).chaptersCompleted ∨
        c ∈ impEx.chaptersCompleted) ∧
    ex2.quizScores
      = ((assocGet p.exams examId).getD getDefaultExamProgress).quizScores ++
          impEx.quizScores.filter (fun q => decide (q.date ∉
            (((assocGet p.exams examId).getD getDefaultExamProgress).quizScores.map
              QuizEntry.date))) ∧
    ex2.flashcardsMastered
      = max ((assocGet p.exams examId).getD getDefaultExamProgress).flashcardsMastered
          impEx.flashcardsMastered ∧
    ex2.lastActivity
      = specLater ((assocGet p.exams examId).getD getDefaultExamProgress).lastActivity
          impEx.lastActivity

/-- Sample data for concrete witnesses: an existing exam record. -/
def sampleExamOld : ExamProgress :=
  { topicsStudied := ["t1"], chaptersCompleted := ["c1"],
    quizScores := [{ date := "2025-01-01T10:00:00.000Z", score := 5, total := 10, passed := false }],
    flashcardsMastered := 2, lastActivity := some "2025-01-01T10:00:00.000Z" }

/-- Sample data for concrete witnesses: an imported exam record. -/
def sampleExamImp : ExamProgress :=
  { topicsStudied := ["t2"], chaptersCompleted := ["c1", "c2"],
    quizScores := [{ date := "2025-02-02T10:00:00.000Z", score := 8, total := 10, passed := true }],
    flashcardsMastered := 5, lastActivity := some "2025-02-02T10:00:00.000Z" }

/-- Sample data for concrete witnesses: a store holding `sampleExamOld`. -/
def sampleStore : Progress :=
  { exams := [("sie", sampleExamOld)],
    streaks := { dates := [], current := 0, longest := 5 } }

/-- Sample data for concrete witnesses: a snapshot holding `sampleExamImp`. -/
def sampleSnap : Progress :=
  { exams := [("sie", sampleExamImp)],
    streaks := { dates := [7], current := 0, longest := 1 } }

/-! ## Theorems -/

/-! ### Helper lemmas on the JS `Set` and sort embeddings -/

lemma mem_foldl_jsSetInsert {α : Type _} [DecidableEq α] (l acc : List α) (x : α) :
    x ∈ l.foldl jsSetInsert acc ↔ x ∈ acc ∨ x ∈ l := by
  induction l generalizing acc with
  | nil => simp
  | cons y ys ih =>
    simp only [List.foldl_cons, ih, jsSetInsert]
    by_cases hy : y ∈ acc
    · simp only [if_pos hy, List.mem_cons]
      constructor
      · rintro (h | h) <;> tauto
      · rintro (h | rfl | h) <;> tauto
    · simp only [if_neg hy, List.mem_append, List.mem_singleton, List.mem_cons]
      tauto

lemma mem_jsSetList {α : Type _} [DecidableEq α] (l : List α) (x : α) :
    x ∈ jsSetList l ↔ x ∈ l := by
  simp [jsSetList, mem_foldl_jsSetInsert]

lemma nodup_foldl_jsSetInsert {α : Type _} [DecidableEq α] (l : List α) :
    ∀ acc : List α, acc.Nodup → (l.foldl jsSetInsert acc).Nodup := by
  induction l with
  | nil => intro acc h; simpa using h
  | cons y ys ih =>
    intro acc h
    simp only [List.foldl_cons]
    apply ih
    unfold jsSetInsert
    by_cases hy : y ∈ acc
    · simpa [hy] using h
    · simp only [if_neg hy]
      exact List.Nodup.append h (List.nodup_singleton y) (by simpa using hy)

lemma nodup_jsSetList {α : Type _} [DecidableEq α] (l : List α) : (jsSetList l).Nodup :=
  nodup_foldl_jsSetInsert l [] List.nodup_nil

lemma foldl_jsSetInsert_of_nodup {α : Type _} [DecidableEq α] (l : List α) :
    ∀ acc : List α, l.Nodup → (∀ x ∈ l, x ∉ acc) → l.foldl jsSetInsert acc = acc ++ l := by
  induction l with
  | nil => intro acc _ _; simp
  | cons y ys ih =>
    intro acc hnd hdisj
    have hy : y ∉ acc := hdisj y (List.mem_cons_self y ys)
    simp only [List.foldl_cons, jsSetInsert, if_neg hy]
    rw [ih (acc ++ [y]) hnd.of_cons]
    · simp
    · intro x hx
      simp only [List.mem_append, List.mem_singleton]
      rintro (h | rfl)
      · exact hdisj x (List.mem_cons_of_mem y hx) h
      · exact (List.nodup_cons.mp hnd).1 hx

lemma jsSetList_of_nodup {α : Type _} [DecidableEq α] (l : List α) (h : l.Nodup) :
    jsSetList l = l := by
  simpa using foldl_jsSetInsert_of_nodup l [] h (by simp)

lemma foldl_jsSetInsert_absorb {α : Type _} [DecidableEq α] (l : List α) :
    ∀ acc : List α, (∀ x ∈ l, x ∈ acc) → l.foldl jsSetInsert acc = acc := by
  induction l with
  | nil => intro acc _; rfl
  | cons y ys ih =>
    intro acc h
    have hy : y ∈ acc := h y (List.mem_cons_self y ys)
    simp only [List.foldl_cons, jsSetInsert, if_pos hy]
    exact ih acc fun x hx => h x (List.mem_cons_of_mem y hx)

lemma jsSetList_append_absorb {α : Type _} [DecidableEq α] (l l2 : List α)
    (hnd : l.Nodup) (hsub : ∀ x ∈ l2, x ∈ l) : jsSetList (l ++ l2) = l := by
  unfold jsSetList
  rw [List.foldl_append]
  have h1 : l.foldl jsSetInsert [] = l := jsSetList_of_nodup l hnd
  rw [h1]
  exact foldl_jsSetInsert_absorb l2 l hsub

lemma length_foldl_jsSetInsert {α : Type _} [DecidableEq α] (l : List α) :
    ∀ acc : List α, (l.foldl jsSetInsert acc).length ≤ acc.length + l.length := by
  induction l with
  | nil => intro acc; simp
  | cons y ys ih =>
    intro acc
    simp only [List.foldl_cons]
    refine le_trans (ih _) ?_
    have hstep : (jsSetInsert acc y).length ≤ acc.length + 1 := by
      unfold jsSetInsert
      split <;> simp
    simp only [List.length_cons]
    omega

lemma length_jsSetList_le {α : Type _} [DecidableEq α] (l : List α) :
    (jsSetList l).length ≤ l.length := by
  simpa using length_foldl_jsSetInsert l []

lemma sortDesc_eq (l : List Int) : sortDesc l = List.insertionSort dateGe l := rfl

lemma sortDesc_perm (l : List Int) : List.Perm (sortDesc l) l := List.perm_insertionSort _ l

lemma sortDesc_sorted (l : List Int) : (sortDesc l).Sorted dateGe :=
  List.sorted_insertionSort dateGe l

lemma jsDedupSortDesc_perm (l : List Int) : List.Perm (jsDedupSortDesc l) (jsSetList l) :=
  sortDesc_perm _

lemma mem_jsDedupSortDesc (l : List Int) (x : Int) :
    x ∈ jsDedupSortDesc l ↔ x ∈ l := by
  rw [(jsDedupSortDesc_perm l).mem_iff, mem_jsSetList]

lemma nodup_jsDedupSortDesc (l : List Int) : (jsDedupSortDesc l).Nodup :=
  (jsDedupSortDesc_perm l).nodup_iff.mpr (nodup_jsSetList l)

lemma sorted_jsDedupSortDesc (l : List Int) : (jsDedupSortDesc l).Sorted dateGe :=
  sortDesc_sorted _

lemma jsDedupSortDesc_ne_nil (l : List Int) (h : l ≠ []) : jsDedupSortDesc l ≠ [] := by
  intro hcon
  rcases List.exists_mem_of_ne_nil l h with ⟨x, hx⟩
  have : x ∈ jsDedupSortDesc l := (mem_jsDedupSortDesc l x).mpr hx
  rw [hcon] at this
  exact List.not_mem_nil x this

lemma jsDedupSortDesc_idem (l : List Int) :
    jsDedupSortDesc (jsDedupSortDesc l) = jsDedupSortDesc l := by
  have h1 : jsDedupSortDesc (jsDedupSortDesc l)
      = sortDesc (jsSetList (jsDedupSortDesc l)) := rfl
  rw [h1, jsSetList_of_nodup _ (nodup_jsDedupSortDesc l), sortDesc_eq]
  exact List.Sorted.insertionSort_eq (sorted_jsDedupSortDesc l)

lemma length_jsDedupSortDesc_le (l : List Int) :
    (jsDedupSortDesc l).length ≤ l.length :=
  le_trans (le_of_eq (sortDesc_perm _).length_eq) (length_jsSetList_le l)

lemma head_ge_of_sorted_ge (d : Int) (rest : List Int)
    (h : (d :: rest).Sorted dateGe) : ∀ x ∈ d :: rest, x ≤ d := by
  intro x hx
  rcases List.mem_cons.mp hx with rfl | hx
  · exact le_refl x
  · exact List.rel_of_sorted_cons h x hx

/-! ### Path lemmas for `updateStreaksS` -/

lemma updateStreaksS_nil (today : Int) (st : Streaks) (h : st.dates = []) :
    updateStreaksS today st = { st with current := 0 } := by
  unfold updateStreaksS
  rw [if_pos h]

lemma updateStreaksS_broken (today : Int) (st : Streaks) (h : st.dates ≠ [])
    (h2 : 1 < today - (jsDedupSortDesc st.dates).headD 0) :
    updateStreaksS today st = { st with dates := jsDedupSortDesc st.dates, current := 0 } := by
  unfold updateStreaksS
  rw [if_neg h, if_pos h2]

lemma updateStreaksS_main (today : Int) (st : Streaks) (h : st.dates ≠ [])
    (h2 : ¬1 < today - (jsDedupSortDesc st.dates).headD 0) :
    updateStreaksS today st =
      { dates := jsDedupSortDesc st.dates,
        current := computeCurrent today (jsDedupSortDesc st.dates),
        longest := max st.longest (computeCurrent today (jsDedupSortDesc st.dates)) } := by
  unfold updateStreaksS
  rw [if_neg h, if_neg h2]

lemma updateStreaksS_inv (today : Int) (st : Streaks) :
    (updateStreaksS today st).current ≤ (updateStreaksS today st).longest ∧
      (updateStreaksS today st).dates.Nodup := by
  by_cases h : st.dates = []
  · rw [updateStreaksS_nil today st h]
    exact ⟨Nat.zero_le _, by simp [h]⟩
  · by_cases h2 : 1 < today - (jsDedupSortDesc st.dates).headD 0
    · rw [updateStreaksS_broken today st h h2]
      exact ⟨Nat.zero_le _, nodup_jsDedupSortDesc _⟩
    · rw [updateStreaksS_main today st h h2]
      exact ⟨le_max_right _ _, nodup_jsDedupSortDesc _⟩

lemma mem_updateStreaksS_dates (today : Int) (st : Streaks) (x : Int) :
    x ∈ (updateStreaksS today st).dates ↔ x ∈ st.dates := by
  by_cases h : st.dates = []
  · rw [updateStreaksS_nil today st h]
  · by_cases h2 : 1 < today - (jsDedupSortDesc st.dates).headD 0
    · rw [updateStreaksS_broken today st h h2]
      exact mem_jsDedupSortDesc _ _
    · rw [updateStreaksS_main today st h h2]
      exact mem_jsDedupSortDesc _ _

lemma updateStreaksS_idem (today : Int) (st : Streaks) :
    updateStreaksS today (updateStreaksS today st) = updateStreaksS today st := by
  by_cases h : st.dates = []
  · rw [updateStreaksS_nil today st h,
      updateStreaksS_nil today { st with current := 0 } h]
  · by_cases h2 : 1 < today - (jsDedupSortDesc st.dates).headD 0
    · rw [updateStreaksS_broken today st h h2]
      have hne : jsDedupSortDesc st.dates ≠ [] := jsDedupSortDesc_ne_nil _ h
      have hidem := jsDedupSortDesc_idem st.dates
      rw [updateStreaksS_broken today _ hne (by rw [hidem]; exact h2)]
      simp [hidem]
    · rw [updateStreaksS_main today st h h2]
      have hne : jsDedupSortDesc st.dates ≠ [] := jsDedupSortDesc_ne_nil _ h
      have hidem := jsDedupSortDesc_idem st.dates
      rw [updateStreaksS_main today _ hne (by rw [hidem]; exact h2)]
      simp [hidem, max_assoc]

/-! ### The streak walk counts the consecutive run -/

lemma specRunLen_succ (dates : List Int) (fuel : Nat) (k : Int) :
    specRunLen dates (fuel + 1) k =
      if k ∈ dates then specRunLen dates fuel (k - 1) + 1 else 0 := rfl

lemma countRun_cons (d : Int) (rest : List Int) (k : Int) :
    countRun (d :: rest) k = if d = k then countRun rest (k - 1) + 1 else 0 := rfl

lemma computeCurrent_cons (D d : Int) (rest : List Int) :
    computeCurrent D (d :: rest) =
      if d = D then countRun rest (D - 1) + 1
      else if D - d = 1 then
        if d = D - 1 then countRun rest (D - 1 - 1) + 1 else 0
      else 0 := rfl

lemma specRunLen_not_mem (dates : List Int) (fuel : Nat) (k : Int) (h : k ∉ dates) :
    specRunLen dates fuel k = 0 := by
  cases fuel with
  | zero => rfl
  | succ f => rw [specRunLen_succ, if_neg h]

lemma countRun_eq_specRunLen (dates : List Int) :
    ∀ (rest : List Int) (k : Int) (fuel : Nat),
      (∀ x, x ∈ rest ↔ x ∈ dates ∧ x ≤ k) →
      rest.Sorted dateGe → rest.Nodup → rest.length ≤ fuel →
      countRun rest k = specRunLen dates fuel k := by
  intro rest
  induction rest with
  | nil =>
    intro k fuel hmem _ _ _
    have hk : k ∉ dates := fun hkd => by simpa using (hmem k).mpr ⟨hkd, le_refl k⟩
    rw [specRunLen_not_mem dates fuel k hk]
    rfl
  | cons d r2 ih =>
    intro k fuel hmem hsort hnd hfuel
    have hd : d ∈ dates ∧ d ≤ k := (hmem d).mp (List.mem_cons_self d r2)
    by_cases hdk : d = k
    · subst hdk
      cases fuel with
      | zero => simp at hfuel
      | succ f =>
        rw [specRunLen_succ, if_pos hd.1, countRun_cons, if_pos rfl]
        congr 1
        apply ih (d - 1) f
        · intro x
          constructor
          · intro hx
            have hxd : x ∈ d :: r2 := List.mem_cons_of_mem d hx
            have hxk := (hmem x).mp hxd
            have hxne : x ≠ d := fun hcon => (List.nodup_cons.mp hnd).1 (hcon ▸ hx)
            exact ⟨hxk.1, by omega⟩
          · intro hx
            have hxk : x ∈ d :: r2 := (hmem x).mpr ⟨hx.1, by omega⟩
            rcases List.mem_cons.mp hxk with rfl | hmem2
            · omega
            · exact hmem2
        · exact hsort.of_cons
        · exact hnd.of_cons
        · simpa using Nat.le_of_succ_le_succ (by simpa using hfuel)
    · have hdlt : d < k := lt_of_le_of_ne hd.2 hdk
      have hknot : k ∉ dates := by
        intro hkd
        have hkmem : k ∈ d :: r2 := (hmem k).mpr ⟨hkd, le_refl k⟩
        rcases List.mem_cons.mp hkmem with rfl | hk2
        · omega
        · have := List.rel_of_sorted_cons hsort k hk2
          unfold dateGe at this
          omega
      rw [specRunLen_not_mem dates fuel k hknot, countRun_cons, if_neg hdk]

lemma updateStreaksS_current_anchor (D : Int) (st : Streaks) (anchor : Int)
    (hne : st.dates ≠ []) (hanch : anchor ∈ st.dates) (hub : ∀ x ∈ st.dates, x ≤ anchor)
    (hD : anchor = D ∨ anchor = D - 1) :
    (updateStreaksS D st).current = specRunLen st.dates st.dates.length anchor := by
  obtain ⟨d, rest, hdecomp⟩ :
      ∃ d rest, jsDedupSortDesc st.dates = d :: rest := by
    cases hcase : jsDedupSortDesc st.dates with
    | nil => exact absurd hcase (jsDedupSortDesc_ne_nil _ hne)
    | cons d rest => exact ⟨d, rest, rfl⟩
  have hsorted : (d :: rest).Sorted dateGe := hdecomp ▸ sorted_jsDedupSortDesc st.dates
  have hnd : (d :: rest).Nodup := hdecomp ▸ nodup_jsDedupSortDesc st.dates
  have hmemiff : ∀ x, x ∈ d :: rest ↔ x ∈ st.dates := by
    intro x
    rw [← hdecomp, mem_jsDedupSortDesc]
  have hda : d = anchor := by
    have h1 : d ∈ st.dates := (hmemiff d).mp (List.mem_cons_self d rest)
    have h2 : anchor ∈ d :: rest := (hmemiff anchor).mpr hanch
    have h3 : anchor ≤ d := head_ge_of_sorted_ge d rest hsorted anchor h2
    have h4 : d ≤ anchor := hub d h1
    omega
  subst hda
  have hcond : ¬1 < D - (jsDedupSortDesc st.dates).headD 0 := by
    rw [hdecomp]
    simp only [List.headD_cons]
    omega
  rw [updateStreaksS_main D st hne hcond, hdecomp]
  have hlen : rest.length + 1 ≤ st.dates.length := by
    have h1 : (jsDedupSortDesc st.dates).length ≤ st.dates.length :=
      length_jsDedupSortDesc_le st.dates
    rw [hdecomp] at h1
    simpa using h1
  obtain ⟨m, hm⟩ : ∃ m, st.dates.length = m + 1 := by
    cases hl : st.dates.length with
    | zero => exact absurd (List.length_eq_zero.mp hl) hne
    | succ m => exact ⟨m, rfl⟩
  have hrest_mem : ∀ x, x ∈ rest ↔ x ∈ st.dates ∧ x ≤ d - 1 := by
    intro x
    constructor
    · intro hx
      have hxs : x ∈ st.dates := (hmemiff x).mp (List.mem_cons_of_mem d hx)
      have hxle : dateGe d x := List.rel_of_sorted_cons hsorted x hx
      unfold dateGe at hxle
      have hxne : x ≠ d := fun hcon => (List.nodup_cons.mp hnd).1 (hcon ▸ hx)
      exact ⟨hxs, by omega⟩
    · intro hx
      have hxc : x ∈ d :: rest := (hmemiff x).mpr hx.1
      rcases List.mem_cons.mp hxc with rfl | hx2
      · omega
      · exact hx2
  have hcount : countRun rest (d - 1) = specRunLen st.dates m (d - 1) :=
    countRun_eq_specRunLen st.dates rest (d - 1) m hrest_mem hsorted.of_cons hnd.of_cons
      (by omega)
  have hspec : specRunLen st.dates st.dates.length d = specRunLen st.dates m (d - 1) + 1 := by
    rw [hm, specRunLen_succ, if_pos hanch]
  rcases hD with rfl | hDy
  · have hcc : computeCurrent d (d :: rest) = countRun rest (d - 1) + 1 := by
      rw [computeCurrent_cons, if_pos rfl]
    rw [hcc, hcount, hspec]
  · have hdD : d ≠ D := by omega
    have hdiff : D - d = 1 := by omega
    have hcc : computeCurrent D (d :: rest) = countRun rest (D - 1 - 1) + 1 := by
      rw [computeCurrent_cons, if_neg hdD, if_pos hdiff, if_pos (by omega : d = D - 1)]
    have harg : D - 1 - 1 = d - 1 := by omega
    rw [hcc, harg, hcount, hspec]

/-- C3: three consecutive activity days ending today give `current = 3`;
a single activity five days ago gives `current = 0`; and a date set whose
most recent entry is yesterday still yields the consecutive-day count
starting at yesterday (the 1-day grace window does not break the streak). -/
theorem streak_continuity (D : Int) :
    (∀ c l : Nat,
      (updateStreaksS D { dates := [D - 2, D - 1, D], current := c, longest := l }).current
        = 3) ∧
    (∀ c l : Nat,
      (updateStreaksS D { dates := [D - 5], current := c, longest := l }).current = 0) ∧
    (∀ st : Streaks, st.dates ≠ [] → (D - 1) ∈ st.dates → (∀ x ∈ st.dates, x ≤ D - 1) →
      (updateStreaksS D st).current = specRunLen st.dates st.dates.length (D - 1)) := by
  refine ⟨?_, ?_, ?_⟩
  · intro c l
    have hanchor := updateStreaksS_current_anchor D
      { dates := [D - 2, D - 1, D], current := c, longest := l } D
      (by simp) (by simp) ?ub (Or.inl rfl)
    case ub =>
      intro x hx
      simp only [List.mem_cons, List.not_mem_nil, or_false] at hx
      rcases hx with rfl | rfl | rfl <;> omega
    rw [hanchor]
    have h1 : (D : Int) ∈ [D - 2, D - 1, D] := by simp
    have h2 : (D - 1 : Int) ∈ [D - 2, D - 1, D] := by simp
    have h3 : (D - 1 - 1 : Int) ∈ [D - 2, D - 1, D] := by
      have he : (D - 1 - 1 : Int) = D - 2 := by omega
      rw [he]; simp
    show specRunLen [D - 2, D - 1, D] (2 + 1) D = 3
    rw [specRunLen_succ, if_pos h1]
    show specRunLen [D - 2, D - 1, D] (1 + 1) (D - 1) + 1 = 3
    rw [specRunLen_succ, if_pos h2]
    show specRunLen [D - 2, D - 1, D] (0 + 1) (D - 1 - 1) + 1 + 1 = 3
    rw [specRunLen_succ, if_pos h3]
    rfl
  · intro c l
    have hdd : jsDedupSortDesc [D - 5] = [D - 5] := by
      unfold jsDedupSortDesc
      rw [jsSetList_of_nodup _ (List.nodup_singleton _)]
      rfl
    have hcond : 1 < D - (jsDedupSortDesc ([D - 5] : List Int)).headD 0 := by
      rw [hdd]
      simp only [List.headD_cons]
      omega
    rw [updateStreaksS_broken D { dates := [D - 5], current := c, longest := l }
      (by simp) hcond]
  · intro st hne hmem hub
    exact updateStreaksS_current_anchor D st (D - 1) hne hmem hub (Or.inr rfl)

/-- Witness for C3 at `D = 10`: dates `{9, 8, 6}` (most recent is
yesterday) give `current = 2`, the run length starting at yesterday. -/
theorem streak_continuity_witness :
    (([9, 8, 6] : List Int) ≠ [] ∧ (10 - 1 : Int) ∈ ([9, 8, 6] : List Int) ∧
      (∀ x ∈ ([9, 8, 6] : List Int), x ≤ 10 - 1)) ∧
    (updateStreaksS 10 { dates := [9, 8, 6], current := 0, longest := 0 }).current
      = specRunLen [9, 8, 6] 3 (10 - 1) ∧
    specRunLen [9, 8, 6] 3 (10 - 1) = 2 :=
  ⟨⟨by decide, by decide, by decide⟩,
    (streak_continuity 10).2.2 { dates := [9, 8, 6], current := 0, longest := 0 }
      (by decide) (by decide) (by decide),
    by decide⟩

lemma mem_pushToday (today : Int) (st : Streaks) : today ∈ (pushToday today st).dates := by
  unfold pushToday
  by_cases h : today ∈ st.dates <;> simp [h]

lemma pushToday_of_mem (today : Int) (st : Streaks) (h : today ∈ st.dates) :
    pushToday today st = st := by
  unfold pushToday
  rw [if_pos h]

/-- C4: `recordActivity` is idempotent within a day — running it twice on
the same calendar day produces exactly the same store (same `current`,
`longest` and date set) as running it once. -/
theorem recordActivity_idempotent (today : Int) (p : Progress) :
    recordActivity today (recordActivity today p) = recordActivity today p := by
  set X : Streaks := pushToday today p.streaks with hX
  have hmem1 : today ∈ (updateStreaksS today X).dates :=
    (mem_updateStreaksS_dates today X today).mpr (mem_pushToday today p.streaks)
  show { p with streaks := updateStreaksS today (pushToday today (updateStreaksS today X)) }
    = { p with streaks := updateStreaksS today X }
  rw [pushToday_of_mem today _ hmem1, updateStreaksS_idem today X]

/-- C9: after every streak recomputation — triggered by `recordActivity`,
`markTopicStudied`, `markChapterComplete`, `saveQuizScore` or a successful
`importAll` — `longest >= current` holds and the persisted date list is
duplicate-free. -/
theorem streak_tracker_invariant (today : Int) (p : Progress) :
    streakInv (recordActivity today p).streaks ∧
    (∀ nowTs examId topicId studied,
      streakInv (markTopicStudied today nowTs examId topicId studied p).streaks) ∧
    (∀ nowTs examId chapterId complete,
      streakInv (markChapterComplete today nowTs examId chapterId complete p).streaks) ∧
    (∀ nowTs examId score total passed,
      streakInv (saveQuizScore today nowTs examId score total passed p).streaks) ∧
    (∀ snap : Progress, streakInv (importProgress today (.object snap) p).2.streaks) := by
  refine ⟨?_, ?_, ?_, ?_, ?_⟩
  · exact updateStreaksS_inv today _
  · intro nowTs examId topicId studied
    exact updateStreaksS_inv today _
  · intro nowTs examId chapterId complete
    exact updateStreaksS_inv today _
  · intro nowTs examId score total passed
    exact updateStreaksS_inv today _
  · intro snap
    exact updateStreaksS_inv today _

/-! ### Sorting: the comparator realizes the claimed composite key -/

lemma cardLe_iff_claimOrder (m : LeitnerMap) (today : Int) (a b : Card) :
    cardLe m today a b ↔ claimOrder m today a b := by
  unfold cardLe cmpCards claimOrder sortKey
  generalize getCardState m today a.id = sa
  generalize getCardState m today b.id = sb
  obtain ⟨abox, anr⟩ := sa
  obtain ⟨bbox, bnr⟩ := sb
  dsimp only
  split_ifs <;>
    first
      | omega
      | (simp only [false_and, true_and, or_false, false_or, and_false, and_true]
         omega)

lemma cardLe_total (m : LeitnerMap) (today : Int) (a b : Card) :
    cardLe m today a b ∨ cardLe m today b a := by
  rw [cardLe_iff_claimOrder, cardLe_iff_claimOrder]
  unfold claimOrder
  omega

lemma cardLe_trans (m : LeitnerMap) (today : Int) (a b c : Card) :
    cardLe m today a b → cardLe m today b c → cardLe m today a c := by
  rw [cardLe_iff_claimOrder, cardLe_iff_claimOrder, cardLe_iff_claimOrder]
  unfold claimOrder
  omega

lemma cardLe_of_key_eq (m : LeitnerMap) (today : Int) (a b : Card)
    (h : sortKey m today a = sortKey m today b) : cardLe m today a b := by
  rw [cardLe_iff_claimOrder]
  unfold claimOrder
  rw [h]
  omega

/-! ### A stable sort is sorted and preserves equal-key subsequences -/

lemma sorted_orderedInsert_of {α : Type _} (r : α → α → Prop) [DecidableRel r]
    (htot : ∀ a b, r a b ∨ r b a) (htrans : ∀ a b c, r a b → r b c → r a c)
    (a : α) (l : List α) (hs : l.Sorted r) : (List.orderedInsert r a l).Sorted r := by
  induction l with
  | nil => simp
  | cons b l ih =>
    rw [List.orderedInsert]
    by_cases hab : r a b
    · rw [if_pos hab]
      rw [List.sorted_cons]
      refine ⟨?_, hs⟩
      intro x hx
      rcases List.mem_cons.mp hx with rfl | hx
      · exact hab
      · exact htrans a b x hab (List.rel_of_sorted_cons hs x hx)
    · rw [if_neg hab]
      rw [List.sorted_cons] at hs ⊢
      refine ⟨?_, ih hs.2⟩
      intro x hx
      rcases (List.mem_orderedInsert r).mp hx with rfl | hx
      · exact (htot x b).resolve_left hab
      · exact hs.1 x hx

lemma sorted_insertionSort_of {α : Type _} (r : α → α → Prop) [DecidableRel r]
    (htot : ∀ a b, r a b ∨ r b a) (htrans : ∀ a b c, r a b → r b c → r a c)
    (l : List α) : (List.insertionSort r l).Sorted r := by
  induction l with
  | nil => simp
  | cons a l ih =>
    rw [List.insertionSort]
    exact sorted_orderedInsert_of r htot htrans a _ ih

lemma filter_orderedInsert_keyed {α β : Type _} [DecidableEq β]
    (r : α → α → Prop) [DecidableRel r] (key : α → β)
    (hkey : ∀ a b, ¬r a b → key a ≠ key b) (a : α) (k : β) :
    ∀ l : List α,
      (List.orderedInsert r a l).filter (fun c => key c = k)
        = (a :: l).filter (fun c => key c = k) := by
  intro l
  induction l with
  | nil => rfl
  | cons b l ih =>
    rw [List.orderedInsert]
    by_cases hab : r a b
    · rw [if_pos hab]
    · rw [if_neg hab]
      have hne : key a ≠ key b := hkey a b hab
      by_cases hbk : key b = k
      · have hak : key a ≠ k := fun hc => hne (hc.trans hbk.symm)
        simp [List.filter_cons, ih, hak, hbk]
      · simp [List.filter_cons, ih, hbk]

lemma filter_insertionSort_keyed {α β : Type _} [DecidableEq β]
    (r : α → α → Prop) [DecidableRel r] (key : α → β)
    (hkey : ∀ a b, ¬r a b → key a ≠ key b) (k : β) :
    ∀ l : List α,
      (List.insertionSort r l).filter (fun c => key c = k)
        = l.filter (fun c => key c = k) := by
  intro l
  induction l with
  | nil => rfl
  | cons a l ih =>
    rw [List.insertionSort, filter_orderedInsert_keyed r key hkey a k,
      List.filter_cons, List.filter_cons, ih]

/-- C2: `sort` orders the queue by the claimed composite key — all due
cards strictly precede all not-yet-due cards, ties broken by ascending box
and then ascending `nextReview` — it returns a permutation of the input
cards, and it is stable: cards with equal composite keys keep their input
order (equal-key subsequences are preserved).  It is deterministic because
the embedding is a pure function of the input state. -/
theorem sortCards_ordering (m : LeitnerMap) (today : Int) (cards : List Card) :
    (sortCards m today cards).Sorted (claimOrder m today) ∧
    List.Perm (sortCards m today cards) cards ∧
    ∀ k, (sortCards m today cards).filter (fun c => sortKey m today c = k)
      = cards.filter (fun c => sortKey m today c = k) := by
  refine ⟨?_, List.perm_insertionSort _ cards, ?_⟩
  · have hs := sorted_insertionSort_of (cardLe m today)
      (cardLe_total m today) (cardLe_trans m today) cards
    exact hs.imp fun h => (cardLe_iff_claimOrder m today _ _).mp h
  · intro k
    exact filter_insertionSort_keyed (cardLe m today) (sortKey m today)
      (fun a b hno hk => hno (cardLe_of_key_eq m today a b hk)) k cards

/-! ### The sort's state frame -/

lemma assocGet_cons {β : Type _} (k : String) (v : β) (rest : List (String × β))
    (id : String) :
    assocGet ((k, v) :: rest) id = if k = id then some v else assocGet rest id := rfl

lemma assocGet_append {β : Type _} (l l2 : List (String × β)) (id : String) :
    assocGet (l ++ l2) id = ((assocGet l id).orElse fun _ => assocGet l2 id) := by
  induction l with
  | nil => rfl
  | cons kv l ih =>
    obtain ⟨k, v⟩ := kv
    rw [List.cons_append, assocGet_cons, assocGet_cons]
    by_cases h : k = id
    · rw [if_pos h, if_pos h]
      rfl
    · rw [if_neg h, if_neg h]
      exact ih

lemma touchStates_cons (m : LeitnerMap) (today : Int) (c : Card) (cs : List Card) :
    touchStates m today (c :: cs) = touchStates (touchCardState m today c.id) today cs := rfl

lemma assocGet_touchCardState_of_some (m : LeitnerMap) (today : Int) (cid id : String)
    (st : CardState) (h : assocGet m id = some st) :
    assocGet (touchCardState m today cid) id = some st := by
  unfold touchCardState
  by_cases hc : (assocGet m cid).isSome
  · rw [if_pos hc]
    exact h
  · rw [if_neg hc, assocGet_append, h]
    rfl

lemma touchStates_preserves (today : Int) (id : String) (st : CardState) :
    ∀ (cards : List Card) (m : LeitnerMap), assocGet m id = some st →
      assocGet (touchStates m today cards) id = some st := by
  intro cards
  induction cards with
  | nil => intro m h; exact h
  | cons c cs ih =>
    intro m h
    rw [touchStates_cons]
    exact ih _ (assocGet_touchCardState_of_some m today c.id id st h)

lemma touchStates_only_defaults (today : Int) (id : String) (st : CardState) :
    ∀ (cards : List Card) (m : LeitnerMap),
      assocGet (touchStates m today cards) id = some st →
      assocGet m id = some st ∨
        (st = { box := 1, nextReview := today } ∧ id ∈ cards.map Card.id) := by
  intro cards
  induction cards with
  | nil => intro m h; exact Or.inl h
  | cons c cs ih =>
    intro m h
    rw [touchStates_cons] at h
    rcases ih _ h with h2 | h2
    · unfold touchCardState at h2
      by_cases hc : (assocGet m c.id).isSome
      · rw [if_pos hc] at h2
        exact Or.inl h2
      · rw [if_neg hc, assocGet_append] at h2
        cases hm : assocGet m id with
        | some y =>
          rw [hm] at h2
          have h3 : some y = some st := h2
          exact Or.inl h3
        | none =>
          rw [hm] at h2
          have h3 : assocGet [(c.id, { box := 1, nextReview := today })] id = some st := h2
          rw [assocGet_cons] at h3
          by_cases hid : c.id = id
          · rw [if_pos hid] at h3
            refine Or.inr ⟨(Option.some_injective _ h3).symm, ?_⟩
            rw [List.map_cons, hid]
            exact List.mem_cons_self id _
          · rw [if_neg hid] at h3
            exact absurd h3 (by simp [assocGet])
    · exact Or.inr ⟨h2.1, by
        rw [List.map_cons]
        exact List.mem_cons_of_mem _ h2.2⟩

/-- C10: sorting never mutates its input — `sortCards` sorts a copy
(`[...cards]`), so the returned queue is a new list that is a permutation
of the input, and the comparator's `getCardState` reads only ever *add*
default `{box: 1, nextReview: today}` entries for unseen ids to the state
map: every pre-existing per-card state is left exactly as it was. -/
theorem sortCards_frame (m : LeitnerMap) (today : Int) (cards : List Card) :
    List.Perm (sortCards m today cards) cards ∧
    (∀ id st, assocGet m id = some st →
      assocGet (touchStates m today cards) id = some st) ∧
    (∀ id st, assocGet (touchStates m today cards) id = some st →
      assocGet m id = some st ∨
        (st = { box := 1, nextReview := today } ∧ id ∈ cards.map Card.id)) := by
  refine ⟨List.perm_insertionSort _ cards, ?_, ?_⟩
  · intro id st h
    exact touchStates_preserves today id st cards m h
  · intro id st h
    exact touchStates_only_defaults today id st cards m h

/-- Witness for C10 on a concrete map and deck: the stored state of card
`"a"` survives sorting untouched, and the unseen card `"b"` only ever gets
the default state. -/
theorem sortCards_frame_witness :
    (assocGet ([("a", { box := 3, nextReview := 7 })] : LeitnerMap) "a"
        = some { box := 3, nextReview := (7 : Int) }) ∧
    assocGet (touchStates ([("a", { box := 3, nextReview := 7 })] : LeitnerMap) 10
        [{ id := "a", term := "A" }, { id := "b", term := "B" }]) "a"
      = some { box := 3, nextReview := (7 : Int) } :=
  ⟨by decide, (sortCards_frame ([("a", { box := 3, nextReview := 7 })] : LeitnerMap) 10
      [{ id := "a", term := "A" }, { id := "b", term := "B" }]).2.1 "a"
      { box := 3, nextReview := (7 : Int) } (by decide)⟩

/-! ### Association-list machinery for the exam map -/

lemma assocGet_none_iff {β : Type _} (l : List (String × β)) (id : String) :
    assocGet l id = none ↔ id ∉ l.map Prod.fst := by
  induction l with
  | nil => simp [assocGet]
  | cons kv l ih =>
    obtain ⟨k, v⟩ := kv
    rw [assocGet_cons]
    by_cases h : k = id
    · simp [h]
    · rw [if_neg h]
      simp only [List.map_cons, List.mem_cons]
      rw [ih]
      constructor
      · intro hn hc
        rcases hc with hc | hc
        · exact h hc.symm
        · exact hn hc
      · intro hn
        exact fun hc => hn (Or.inr hc)

lemma assocGet_of_mem_nodup {β : Type _} (l : List (String × β)) (k : String) (w : β)
    (hmem : (k, w) ∈ l) (hnd : (l.map Prod.fst).Nodup) : assocGet l k = some w := by
  induction l with
  | nil => simp at hmem
  | cons kv l ih =>
    obtain ⟨k1, w1⟩ := kv
    simp only [List.map_cons, List.nodup_cons] at hnd
    rcases List.mem_cons.mp hmem with heq | htail
    · have hk : k = k1 := congrArg Prod.fst heq
      have hw : w = w1 := congrArg Prod.snd heq
      subst hk
      subst hw
      rw [assocGet_cons, if_pos rfl]
    · have hin : k ∈ l.map Prod.fst := by
        have := List.mem_map_of_mem Prod.fst htail
        simpa using this
      have hne : k1 ≠ k := fun hc => hnd.1 (hc ▸ hin)
      rw [assocGet_cons, if_neg hne]
      exact ih htail hnd.2

/-- The in-place-update half of `setExam`, as a map over the entries. -/
lemma assocGet_mapUpdate_self (id : String) (v : ExamProgress) :
    ∀ l : List (String × ExamProgress), (assocGet l id).isSome →
      assocGet (l.map fun kv => if kv.1 = id then (id, v) else kv) id = some v := by
  intro l
  induction l with
  | nil => intro h; simp [assocGet] at h
  | cons kv l ih =>
    intro h
    obtain ⟨k, w⟩ := kv
    by_cases hk : k = id
    · subst hk
      rw [List.map_cons]
      have hkv : (if ((k, w) : String × ExamProgress).1 = k then (k, v) else (k, w))
          = (k, v) := if_pos rfl
      rw [hkv, assocGet_cons, if_pos rfl]
    · rw [List.map_cons]
      have hkv : (if (k, w).1 = id then (id, v) else (k, w)) = (k, w) := if_neg hk
      rw [hkv, assocGet_cons, if_neg hk]
      apply ih
      rw [assocGet_cons, if_neg hk] at h
      exact h

lemma assocGet_mapUpdate_other (id : String) (v : ExamProgress) (id2 : String)
    (h : id2 ≠ id) :
    ∀ l : List (String × ExamProgress),
      assocGet (l.map fun kv => if kv.1 = id then (id, v) else kv) id2
        = assocGet l id2 := by
  intro l
  induction l with
  | nil => rfl
  | cons kv l ih =>
    obtain ⟨k, w⟩ := kv
    by_cases hk : k = id
    · subst hk
      rw [List.map_cons]
      have hkv : (if ((k, w) : String × ExamProgress).1 = k then (k, v) else (k, w))
          = (k, v) := if_pos rfl
      rw [hkv, assocGet_cons, assocGet_cons, if_neg fun hc => h hc.symm,
        if_neg fun hc => h hc.symm]
      exact ih
    · rw [List.map_cons]
      have hkv : (if (k, w).1 = id then (id, v) else (k, w)) = (k, w) := if_neg hk
      rw [hkv, assocGet_cons, assocGet_cons]
      by_cases hk2 : k = id2
      · rw [if_pos hk2, if_pos hk2]
      · rw [if_neg hk2, if_neg hk2]
        exact ih

lemma keys_mapUpdate (id : String) (v : ExamProgress)
    (l : List (String × ExamProgress)) :
    (l.map fun kv => if kv.1 = id then (id, v) else kv).map Prod.fst
      = l.map Prod.fst := by
  rw [List.map_map]
  apply List.map_congr_left
  intro kv _
  by_cases hk : kv.1 = id
  · simp [hk]
  · simp [hk]

lemma nodup_keys_setExam (l : List (String × ExamProgress)) (id : String)
    (v : ExamProgress) (hnd : (l.map Prod.fst).Nodup) :
    ((setExam l id v).map Prod.fst).Nodup := by
  unfold setExam
  by_cases h : (assocGet l id).isSome
  · rw [if_pos h, keys_mapUpdate]
    exact hnd
  · rw [if_neg h]
    have hid : id ∉ l.map Prod.fst :=
      (assocGet_none_iff l id).mp (Option.not_isSome_iff_eq_none.mp h)
    simp only [List.map_append, List.map_cons, List.map_nil]
    exact List.Nodup.append hnd (List.nodup_singleton id) (by simpa using hid)

lemma assocGet_setExam_self (l : List (String × ExamProgress)) (id : String)
    (v : ExamProgress) : assocGet (setExam l id v) id = some v := by
  unfold setExam
  by_cases h : (assocGet l id).isSome
  · rw [if_pos h]
    exact assocGet_mapUpdate_self id v l h
  · rw [if_neg h, assocGet_append, Option.not_isSome_iff_eq_none.mp h,
      assocGet_cons, if_pos rfl]
    rfl

lemma assocGet_setExam_other (l : List (String × ExamProgress)) (id : String)
    (v : ExamProgress) (id2 : String) (h : id2 ≠ id) :
    assocGet (setExam l id v) id2 = assocGet l id2 := by
  unfold setExam
  by_cases hs : (assocGet l id).isSome
  · rw [if_pos hs]
    exact assocGet_mapUpdate_other id v id2 h l
  · rw [if_neg hs, assocGet_append, assocGet_cons, if_neg fun hc => h hc.symm]
    cases hm : assocGet l id2 with
    | some y => rfl
    | none => rfl

/-! ### The per-exam import merge -/

lemma mergeExamInto_streaks (p : Progress) (id : String) (imp : ExamProgress) :
    (mergeExamInto p id imp).streaks = p.streaks := rfl

lemma foldExams_cons (p : Progress) (kv : String × ExamProgress)
    (l : List (String × ExamProgress)) :
    foldExams p (kv :: l) = foldExams (mergeExamInto p kv.1 kv.2) l := rfl

lemma foldExams_streaks (l : List (String × ExamProgress)) :
    ∀ p : Progress, (foldExams p l).streaks = p.streaks := by
  induction l with
  | nil => intro p; rfl
  | cons kv l ih =>
    intro p
    rw [foldExams_cons, ih, mergeExamInto_streaks]

lemma assocGet_mergeExamInto_self (p : Progress) (id : String) (imp : ExamProgress) :
    assocGet (mergeExamInto p id imp).exams id
      = some (mergeExamData ((assocGet p.exams id).getD getDefaultExamProgress) imp) :=
  assocGet_setExam_self p.exams id _

lemma assocGet_mergeExamInto_other (p : Progress) (id : String) (imp : ExamProgress)
    (id2 : String) (h : id2 ≠ id) :
    assocGet (mergeExamInto p id imp).exams id2 = assocGet p.exams id2 :=
  assocGet_setExam_other p.exams id _ id2 h

lemma nodup_keys_mergeExamInto (p : Progress) (id : String) (imp : ExamProgress)
    (hnd : (p.exams.map Prod.fst).Nodup) :
    ((mergeExamInto p id imp).exams.map Prod.fst).Nodup :=
  nodup_keys_setExam p.exams id _ hnd

lemma nodup_keys_foldExams (l : List (String × ExamProgress)) :
    ∀ p : Progress, (p.exams.map Prod.fst).Nodup →
      ((foldExams p l).exams.map Prod.fst).Nodup := by
  induction l with
  | nil => intro p h; exact h
  | cons kv l ih =>
    intro p h
    rw [foldExams_cons]
    exact ih _ (nodup_keys_mergeExamInto p kv.1 kv.2 h)

lemma assocGet_foldExams_not_mem (l : List (String × ExamProgress)) (id : String) :
    ∀ p : Progress, id ∉ l.map Prod.fst →
      assocGet (foldExams p l).exams id = assocGet p.exams id := by
  induction l with
  | nil => intro p _; rfl
  | cons kv l ih =>
    intro p h
    simp only [List.map_cons, List.mem_cons] at h
    rw [foldExams_cons, ih _ fun hc => h (Or.inr hc),
      assocGet_mergeExamInto_other _ _ _ _ fun hc => h (Or.inl hc)]

lemma assocGet_foldExams_mem (l : List (String × ExamProgress)) (id : String)
    (imp : ExamProgress) :
    ∀ p : Progress, (id, imp) ∈ l → (l.map Prod.fst).Nodup →
      assocGet (foldExams p l).exams id
        = some (mergeExamData ((assocGet p.exams id).getD getDefaultExamProgress) imp) := by
  induction l with
  | nil => intro p hmem _; simp at hmem
  | cons kv l ih =>
    intro p hmem hnd
    obtain ⟨k, v⟩ := kv
    simp only [List.map_cons, List.nodup_cons] at hnd
    rcases List.mem_cons.mp hmem with heq | htail
    · have hk : id = k := congrArg Prod.fst heq
      have hv : imp = v := congrArg Prod.snd heq
      subst hk
      subst hv
      rw [foldExams_cons,
        assocGet_foldExams_not_mem l id _ hnd.1,
        assocGet_mergeExamInto_self]
    · have hin : id ∈ l.map Prod.fst := by
        have := List.mem_map_of_mem Prod.fst htail
        simpa using this
      have hne : id ≠ k := fun hc => hnd.1 (hc ▸ hin)
      rw [foldExams_cons, ih _ htail hnd.2,
        assocGet_mergeExamInto_other _ _ _ _ hne]

/-! ### Field-level facts about `mergeExamData` -/

lemma mergeExamData_topics (ex imp : ExamProgress) :
    (mergeExamData ex imp).topicsStudied
      = jsSetList (ex.topicsStudied ++ imp.topicsStudied) := rfl

lemma mergeExamData_chapters (ex imp : ExamProgress) :
    (mergeExamData ex imp).chaptersCompleted
      = jsSetList (ex.chaptersCompleted ++ imp.chaptersCompleted) := rfl

lemma mergeExamData_quiz (ex imp : ExamProgress) :
    (mergeExamData ex imp).quizScores
      = ex.quizScores ++ imp.quizScores.filter
          (fun q => decide (q.date ≠ "" ∧ q.date ∉ ex.quizScores.map QuizEntry.date)) := rfl

lemma mergeExamData_fm (ex imp : ExamProgress) :
    (mergeExamData ex imp).flashcardsMastered
      = max ex.flashcardsMastered imp.flashcardsMastered := rfl

lemma mergeExamData_la (ex imp : ExamProgress) :
    (mergeExamData ex imp).lastActivity
      = mergeLastActivity ex.lastActivity imp.lastActivity := rfl

lemma mergeLastActivity_eq_specLater (ex imp : Option String)
    (himp : imp ≠ some "") : mergeLastActivity ex imp = specLater ex imp := by
  rcases imp with _ | i
  · rcases ex with _ | e <;> rfl
  · have hi : i ≠ "" := fun hc => himp (by rw [hc])
    rcases ex with _ | e
    · simp [mergeLastActivity, specLater, hi]
    · by_cases he : e = ""
      · subst he
        have hlt : ("" : String) < i := by
          rw [String.lt_iff_toList_lt]
          cases hc : i.toList with
          | nil => exact absurd (String.ext (hc : i.data = [])) hi
          | cons c cs => exact List.nil_lt_cons c cs
        simp [mergeLastActivity, specLater, hi, hlt]
      · simp [mergeLastActivity, specLater, hi, he]

/-- C5: for every exam id present in an imported snapshot, `importAll`
merges the per-exam data as claimed: duplicate-free set union of
`topicsStudied` and `chaptersCompleted`, quiz scores gaining exactly the
imported entries whose timestamp is not already present (without
reordering existing entries), max of `flashcardsMastered`, and the later
`lastActivity`.  Hypotheses: the snapshot's exam ids are unique (a JS
object cannot repeat keys) and its timestamps are real (non-empty)
strings. -/
theorem import_merge_per_exam (today : Int) (p snap : Progress) (examId : String)
    (impEx : ExamProgress)
    (hmem : (examId, impEx) ∈ snap.exams)
    (hkeys : (snap.exams.map Prod.fst).Nodup)
    (hq : ∀ q ∈ impEx.quizScores, q.date ≠ "")
    (hla : impEx.lastActivity ≠ some "") :
    importMergeSpec today p snap examId impEx := by
  unfold importMergeSpec
  set old := (assocGet p.exams examId).getD getDefaultExamProgress with hold
  have hx : (importProgress today (.object snap) p).2.exams
      = (foldExams p snap.exams).exams := rfl
  refine ⟨mergeExamData old impEx, ?_, ?_, ?_, ?_, ?_, ?_, ?_, ?_⟩
  · rw [hx]
    exact assocGet_foldExams_mem snap.exams examId impEx p hmem hkeys
  · rw [mergeExamData_topics]
    exact nodup_jsSetList _
  · intro t
    rw [mergeExamData_topics, mem_jsSetList, List.mem_append]
  · rw [mergeExamData_chapters]
    exact nodup_jsSetList _
  · intro c
    rw [mergeExamData_chapters, mem_jsSetList, List.mem_append]
  · rw [mergeExamData_quiz]
    congr 1
    apply List.filter_congr
    intro q hqmem
    have hd := hq q hqmem
    simp [hd]
  · rw [mergeExamData_fm]
  · rw [mergeExamData_la]
    exact mergeLastActivity_eq_specLater _ _ hla

/-- Witness for C5 on the sample store and snapshot. -/
theorem import_merge_per_exam_witness :
    ((("sie", sampleExamImp) ∈ sampleSnap.exams ∧
      (sampleSnap.exams.map Prod.fst).Nodup ∧
      (∀ q ∈ sampleExamImp.quizScores, q.date ≠ "") ∧
      sampleExamImp.lastActivity ≠ some "") ∧
    importMergeSpec 10 sampleStore sampleSnap "sie" sampleExamImp) :=
  ⟨⟨by decide, by decide, by decide, by decide⟩,
    import_merge_per_exam 10 sampleStore sampleSnap "sie" sampleExamImp
      (by decide) (by decide) (by decide) (by decide)⟩

/-! ### Idempotence of the import merge -/

lemma ExamProgress_ext (x y : ExamProgress)
    (h1 : x.topicsStudied = y.topicsStudied)
    (h2 : x.chaptersCompleted = y.chaptersCompleted)
    (h3 : x.quizScores = y.quizScores)
    (h4 : x.flashcardsMastered = y.flashcardsMastered)
    (h5 : x.lastActivity = y.lastActivity) : x = y := by
  cases x
  cases y
  cases h1
  cases h2
  cases h3
  cases h4
  cases h5
  rfl

lemma mergeLastActivity_idem (e i : Option String) :
    mergeLastActivity (mergeLastActivity e i) i = mergeLastActivity e i := by
  rcases i with _ | la
  · rfl
  · by_cases hla : la = ""
    · subst hla
      simp [mergeLastActivity]
    · rcases e with _ | ela
      · simp [mergeLastActivity, hla]
      · by_cases hela : ela = ""
        · simp [mergeLastActivity, hla, hela]
        · by_cases hlt : ela < la
          · simp [mergeLastActivity, hla, hela, hlt]
          · simp [mergeLastActivity, hla, hela, hlt]

lemma quizFilter_idem (aqs bqs : List QuizEntry) :
    bqs.filter (fun q => decide (q.date ≠ "" ∧ q.date ∉
      List.map QuizEntry.date (aqs ++ bqs.filter (fun q => decide (q.date ≠ "" ∧
        q.date ∉ List.map QuizEntry.date aqs))))) = [] := by
  rw [List.filter_eq_nil_iff]
  intro q hq
  simp only [decide_eq_true_eq, not_and, not_not]
  intro hdate
  rw [List.map_append, List.mem_append]
  by_cases hmem : q.date ∈ aqs.map QuizEntry.date
  · exact Or.inl hmem
  · refine Or.inr (List.mem_map_of_mem QuizEntry.date ?_)
    rw [List.mem_filter]
    exact ⟨hq, by simp [hdate, hmem]⟩

lemma mergeExamData_idem (a b : ExamProgress) :
    mergeExamData (mergeExamData a b) b = mergeExamData a b := by
  apply ExamProgress_ext
  · rw [mergeExamData_topics, mergeExamData_topics]
    apply jsSetList_append_absorb _ _ (nodup_jsSetList _)
    intro x hx
    rw [mem_jsSetList, List.mem_append]
    exact Or.inr hx
  · rw [mergeExamData_chapters, mergeExamData_chapters]
    apply jsSetList_append_absorb _ _ (nodup_jsSetList _)
    intro x hx
    rw [mem_jsSetList, List.mem_append]
    exact Or.inr hx
  · rw [mergeExamData_quiz, mergeExamData_quiz, quizFilter_idem, List.append_nil]
  · rw [mergeExamData_fm, mergeExamData_fm, max_assoc, max_self]
  · rw [mergeExamData_la, mergeExamData_la, mergeLastActivity_idem]

lemma mergeLastActivity_diag (e : Option String) : mergeLastActivity e e = e := by
  rcases e with _ | x
  · rfl
  · by_cases hx : x = ""
    · subst hx
      simp [mergeLastActivity]
    · simp [mergeLastActivity, hx]

lemma mergeExamData_diag (ex : ExamProgress)
    (h1 : ex.topicsStudied.Nodup) (h2 : ex.chaptersCompleted.Nodup) :
    mergeExamData ex ex = ex := by
  apply ExamProgress_ext
  · rw [mergeExamData_topics]
    exact jsSetList_append_absorb _ _ h1 fun x hx => hx
  · rw [mergeExamData_chapters]
    exact jsSetList_append_absorb _ _ h2 fun x hx => hx
  · rw [mergeExamData_quiz]
    have hnil : ex.quizScores.filter (fun q => decide (q.date ≠ "" ∧
        q.date ∉ ex.quizScores.map QuizEntry.date)) = [] := by
      rw [List.filter_eq_nil_iff]
      intro q hq
      simp only [decide_eq_true_eq, not_and, not_not]
      intro _
      exact List.mem_map_of_mem QuizEntry.date hq
    rw [hnil, List.append_nil]
  · rw [mergeExamData_fm, max_self]
  · rw [mergeExamData_la, mergeLastActivity_diag]

lemma setExam_of_assocGet_eq (l : List (String × ExamProgress)) (id : String)
    (v : ExamProgress) (hnd : (l.map Prod.fst).Nodup)
    (h : assocGet l id = some v) : setExam l id v = l := by
  unfold setExam
  rw [if_pos (by rw [h]; rfl)]
  conv_rhs => rw [← List.map_id l]
  apply List.map_congr_left
  intro kv hkv
  by_cases hk : kv.1 = id
  · have hget : assocGet l kv.1 = some kv.2 := by
      have hmem : (kv.1, kv.2) ∈ l := by
        rw [Prod.mk.eta]
        exact hkv
      exact assocGet_of_mem_nodup l kv.1 kv.2 hmem hnd
    rw [hk, h] at hget
    have hv : v = kv.2 := Option.some_injective _ hget
    rw [if_pos hk]
    show (id, v) = kv
    rw [← hk, hv, Prod.mk.eta]
  · rw [if_neg hk]
    rfl

lemma mergeExamInto_id (q : Progress) (id : String) (imp v : ExamProgress)
    (hnd : (q.exams.map Prod.fst).Nodup)
    (h : assocGet q.exams id = some v)
    (hmerge : mergeExamData v imp = v) :
    mergeExamInto q id imp = q := by
  have hset : setExam q.exams id
      (mergeExamData ((assocGet q.exams id).getD getDefaultExamProgress) imp)
      = q.exams := by
    rw [h, Option.getD_some, hmerge]
    exact setExam_of_assocGet_eq q.exams id v hnd h
  show { q with exams := setExam q.exams id (mergeExamData ((assocGet q.exams id).getD getDefaultExamProgress) imp) } = q
  rw [hset]

lemma foldExams_id (q : Progress) (l : List (String × ExamProgress))
    (h : ∀ kv ∈ l, mergeExamInto q kv.1 kv.2 = q) : foldExams q l = q := by
  induction l with
  | nil => rfl
  | cons kv l ih =>
    rw [foldExams_cons, h kv (List.mem_cons_self kv l)]
    exact ih fun kv2 hkv2 => h kv2 (List.mem_cons_of_mem kv hkv2)

lemma updateStreaksS_longest_ge (today : Int) (st : Streaks) :
    st.longest ≤ (updateStreaksS today st).longest := by
  by_cases h : st.dates = []
  · rw [updateStreaksS_nil today st h]
  · by_cases h2 : 1 < today - (jsDedupSortDesc st.dates).headD 0
    · rw [updateStreaksS_broken today st h h2]
    · rw [updateStreaksS_main today st h h2]
      exact le_max_left _ _

/-- C6 counterexample: `importAll(exportAll())` is *not* a fixed point for
every store.  A store whose streak was recomputed two days ago — dates
`{today - 2}`, `current = 1`, `longest = 1` — is changed by the round
trip, because the import re-runs the streak recomputation with today's
date and resets the stale `current` to 0. -/
theorem import_export_not_fixed_point :
    (importProgress 10
        (exportProgress { exams := [], streaks := { dates := [8], current := 1, longest := 1 } })
        { exams := [], streaks := { dates := [8], current := 1, longest := 1 } }).2
      ≠ { exams := [], streaks := { dates := [8], current := 1, longest := 1 } } := by
  decide

/-- C6 (amended): `importAll(exportAll())` leaves the store unchanged for
every store whose streak state is already a fixed point of today's streak
recomputation and whose exam lists are duplicate-free with unique exam ids
— which holds for any store the code itself last wrote today; for a stale
store the recomputation inside import resets `current`, which is what the
counterexample exhibits.  Moreover, importing the same well-formed
snapshot twice always produces the same store as importing it once. -/
theorem import_export_roundtrip (today : Int) (p snap : Progress)
    (hpkeys : (p.exams.map Prod.fst).Nodup)
    (hpfields : ∀ kv ∈ p.exams,
      (kv.2 : ExamProgress).topicsStudied.Nodup ∧ kv.2.chaptersCompleted.Nodup)
    (hstreak : updateStreaksS today p.streaks = p.streaks)
    (hsnapkeys : (snap.exams.map Prod.fst).Nodup) :
    importProgress today (exportProgress p) p = (true, p) ∧
    importProgress today (.object snap) (importProgress today (.object snap) p).2
      = importProgress today (.object snap) p := by
  have hpnodupdates : p.streaks.dates.Nodup := by
    rw [← hstreak]
    exact (updateStreaksS_inv today p.streaks).2
  constructor
  · -- export/import round trip
    have hcur : foldExams p p.exams = p := by
      apply foldExams_id
      intro kv hkv
      obtain ⟨id, ex⟩ := kv
      exact mergeExamInto_id p id ex ex hpkeys
        (assocGet_of_mem_nodup p.exams id ex hkv hpkeys)
        (mergeExamData_diag ex (hpfields (id, ex) hkv).1 (hpfields (id, ex) hkv).2)
    have hms : mergeStreaks today p p = p.streaks := by
      unfold mergeStreaks
      have hdd : jsSetList (p.streaks.dates ++ p.streaks.dates) = p.streaks.dates :=
        jsSetList_append_absorb _ _ hpnodupdates fun x hx => hx
      rw [hdd, max_self]
      exact hstreak
    have h1 : importProgress today (exportProgress p) p
        = (true, { foldExams p p.exams with streaks := mergeStreaks today (foldExams p p.exams) p }) := rfl
    rw [h1, hcur, hms]
  · -- double import
    set cur1 := foldExams p snap.exams with hcur1
    have h1 : importProgress today (.object snap) p
        = (true, { cur1 with streaks := mergeStreaks today cur1 snap }) := rfl
    set T1 : Progress := { cur1 with streaks := mergeStreaks today cur1 snap } with hT1def
    have hT1exams : T1.exams = cur1.exams := rfl
    have hT1streaks : T1.streaks = mergeStreaks today cur1 snap := rfl
    have hT1keys : (T1.exams.map Prod.fst).Nodup := by
      rw [hT1exams, hcur1]
      exact nodup_keys_foldExams snap.exams p hpkeys
    have hc2 : foldExams T1 snap.exams = T1 := by
      apply foldExams_id
      intro kv hkv
      obtain ⟨id, imp⟩ := kv
      have hT1get : assocGet T1.exams id
          = some (mergeExamData ((assocGet p.exams id).getD getDefaultExamProgress) imp) := by
        rw [hT1exams, hcur1]
        exact assocGet_foldExams_mem snap.exams id imp p hkv hsnapkeys
      exact mergeExamInto_id T1 id imp _ hT1keys hT1get (mergeExamData_idem _ _)
    have hS1nodup : T1.streaks.dates.Nodup := by
      rw [hT1streaks]
      exact (updateStreaksS_inv today _).2
    have hsub : ∀ x ∈ snap.streaks.dates, x ∈ T1.streaks.dates := by
      intro x hx
      rw [hT1streaks]
      unfold mergeStreaks
      rw [mem_updateStreaksS_dates]
      show x ∈ jsSetList (cur1.streaks.dates ++ snap.streaks.dates)
      rw [mem_jsSetList, List.mem_append]
      exact Or.inr hx
    have hlong : max T1.streaks.longest snap.streaks.longest = T1.streaks.longest := by
      apply max_eq_left
      rw [hT1streaks]
      unfold mergeStreaks
      have hstep := updateStreaksS_longest_ge today
        { dates := jsSetList (cur1.streaks.dates ++ snap.streaks.dates),
          current := cur1.streaks.current,
          longest := max cur1.streaks.longest snap.streaks.longest }
      exact le_trans (le_max_right _ _) hstep
    have hd : mergeStreaks today T1 snap = T1.streaks := by
      unfold mergeStreaks
      rw [jsSetList_append_absorb _ _ hS1nodup hsub, hlong]
      show updateStreaksS today T1.streaks = T1.streaks
      rw [hT1streaks]
      unfold mergeStreaks
      exact updateStreaksS_idem today _
    have h2 : importProgress today (.object snap) T1
        = (true, { foldExams T1 snap.exams with streaks := mergeStreaks today (foldExams T1 snap.exams) snap }) := rfl
    rw [h1]
    show importProgress today (.object snap) T1 = (true, T1)
    rw [h2, hc2, hd]

/-- Witness for C6's amended round trip on the sample store and snapshot
(the sample store's streak state is a fixed point of today's
recomputation). -/
theorem import_export_roundtrip_witness :
    ((sampleStore.exams.map Prod.fst).Nodup ∧
      (∀ kv ∈ sampleStore.exams,
        (kv.2 : ExamProgress).topicsStudied.Nodup ∧ kv.2.chaptersCompleted.Nodup) ∧
      updateStreaksS 10 sampleStore.streaks = sampleStore.streaks ∧
      (sampleSnap.exams.map Prod.fst).Nodup) ∧
    importProgress 10 (exportProgress sampleStore) sampleStore = (true, sampleStore) :=
  ⟨⟨by decide, by decide, by decide, by decide⟩,
    (import_export_roundtrip 10 sampleStore sampleSnap (by decide) (by decide)
      (by decide) (by decide)).1⟩

lemma BOX_INTERVALS_eq_spec (b : Nat) : BOX_INTERVALS b = specBoxInterval b := rfl

/-- C1: `recordAnswer` with `knowsIt = true` sets the box to
`min(box+1, 5)` and schedules the next review `today` plus the interval of
the *new* box from the table `{1:0, 2:2, 3:4, 4:7, 5:14}`; with
`knowsIt = false` it resets the box to exactly 1 and the next review to
today, so the card is immediately due (`nextReview ≤ today`). -/
theorem recordAnswer_transitions (st : CardState) (today : Int)
    (h1 : 1 ≤ st.box) (h2 : st.box ≤ 5) :
    (handleAnswer true today st).box = min (st.box + 1) 5 ∧
    (handleAnswer true today st).nextReview
      = today + specBoxInterval (min (st.box + 1) 5) ∧
    (handleAnswer false today st).box = 1 ∧
    (handleAnswer false today st).nextReview = today ∧
    (handleAnswer false today st).nextReview ≤ today := by
  refine ⟨rfl, ?_, rfl, rfl, le_refl _⟩
  simp [handleAnswer, addDays, BOX_INTERVALS_eq_spec]

/-- Witness for C1 at a concrete card: box 2, answered correctly, moves to
box 3 with review in 4 days; answered incorrectly, drops to box 1 due
today. -/
theorem recordAnswer_transitions_witness :
    (1 ≤ (2 : Nat) ∧ (2 : Nat) ≤ 5) ∧
    ((handleAnswer true 100 { box := 2, nextReview := 100 }).box = min (2 + 1) 5 ∧
      (handleAnswer true 100 { box := 2, nextReview := 100 }).nextReview
        = 100 + specBoxInterval (min (2 + 1) 5) ∧
      (handleAnswer false 100 { box := 2, nextReview := 100 }).box = 1 ∧
      (handleAnswer false 100 { box := 2, nextReview := 100 }).nextReview = 100 ∧
      (handleAnswer false 100 { box := 2, nextReview := 100 }).nextReview ≤ 100) :=
  ⟨⟨by decide, by decide⟩,
    recordAnswer_transitions { box := 2, nextReview := 100 } 100 (by decide) (by decide)⟩

/-- C7: `importAll` fails closed — on an unparseable JSON string or a
non-object top level it returns `false` with the persisted store completely
unchanged (no partial merge is ever saved on a failure), and it returns
`true` on success. -/
theorem importAll_fails_closed (today : Int) (p : Progress) :
    importProgress today .parseFail p = (false, p) ∧
    importProgress today .nonObject p = (false, p) ∧
    ∀ snap : Progress, (importProgress today (.object snap) p).1 = true :=
  ⟨rfl, rfl, fun _ => rfl⟩

/-- C8 counterexample: the claim states that a quiz score of 18/25 (72%)
with passing threshold 70 yields `passed == false`; the code computes
`percent = round(18/25*100) = 72` and `passed = (72 >= 70) = true`. -/
theorem quiz_18_25_passes :
    quizPercent 18 25 = 72 ∧ quizPassed 18 25 = true := by
  constructor
  · norm_num [quizPercent, mathRound, Int.floor_eq_iff]
  · have : quizPercent 18 25 = 72 := by
      norm_num [quizPercent, mathRound, Int.floor_eq_iff]
    simp [quizPassed, this]

/-- C8 (amended): `percent = round(score/total*100)` and
`passed = (percent >= 70)`; for `score=18, total=25` (72%) `passed == true`
(not `false` as claimed), and for `score=18, total=24` (75%)
`passed == true`. -/
theorem quiz_pass_rule (c t : Nat) (h : 0 < t) :
    (quizPercent c t = mathRound ((c : ℚ) / (t : ℚ) * 100) ∧
      (quizPassed c t = true ↔ 70 ≤ quizPercent c t)) ∧
    quizPercent 18 25 = 72 ∧ quizPassed 18 25 = true ∧
    quizPercent 18 24 = 75 ∧ quizPassed 18 24 = true := by
  refine ⟨⟨by simp [quizPercent, h], by simp [quizPassed]⟩, ?_, ?_, ?_, ?_⟩
  · norm_num [quizPercent, mathRound, Int.floor_eq_iff]
  · have : quizPercent 18 25 = 72 := by
      norm_num [quizPercent, mathRound, Int.floor_eq_iff]
    simp [quizPassed, this]
  · norm_num [quizPercent, mathRound, Int.floor_eq_iff]
  · have : quizPercent 18 24 = 75 := by
      norm_num [quizPercent, mathRound, Int.floor_eq_iff]
    simp [quizPassed, this]

/-- Witness for C8's amended rule at `score = 18, total = 24`. -/
theorem quiz_pass_rule_witness :
    0 < 24 ∧
    (quizPercent 18 24 = mathRound ((18 : ℚ) / (24 : ℚ) * 100) ∧
      (quizPassed 18 24 = true ↔ 70 ≤ quizPercent 18 24)) :=
  ⟨by decide, (quiz_pass_rule 18 24 (by decide)).1⟩

end LearnFinance
